import Mathlib

/-!
Shallow embedding of `src/train.py` (the training driver of the
visual-dynamics repository) and verification of the specification's
claims about it.

The script is an epoch loop: a training pass (per-batch loss logging and
step bookkeeping), a test pass (sample-weighted loss aggregation), an
adaptive KL-weight adjustment, and a periodic snapshot/visualization
block.  Neural-network evaluation, dataset loading, checkpoint I/O and
the logger backend are external collaborators; they are modelled by the
per-batch loss values they produce and by an observable event trace.
All loss values and weights are modelled as rationals.
-/

namespace VisualDynamics

/-- One training batch as the driver sees it: its size (`targets.size(0)`)
and the two loss values the external model/loss evaluators produce for it
(`mse_loss` at line 93, `kld_loss` at line 94 of `train.py`). -/
structure TrainBatch where
  size : ℕ
  loss_r : ℚ
  loss_kl : ℚ
deriving DecidableEq, Repr

/-- One test batch: its size and the two loss values produced for it
(lines 120-121 of `train.py`). -/
structure TestBatch where
  size : ℕ
  loss_r : ℚ
  loss_kl : ℚ
deriving DecidableEq, Repr

/-- The command-line configuration relevant to the verified logic
(lines 33-39 of `train.py`): `target_loss` (checked against `None` at
line 128, hence an `Option`), `max_weight`, the snapshot interval
(an `int` in the source, hence `ℤ`), and the epoch count. -/
structure Config where
  target_loss : Option ℚ
  max_weight : ℚ
  snapshot : ℤ
  epochs : ℕ
deriving DecidableEq, Repr

/-- Tags of the scalar summaries the driver emits (lines 100-102 and
124-125 of `train.py`). -/
inductive ScalarTag where
  | train_loss
  | train_loss_r
  | train_loss_kl
  | test_loss_r
  | test_loss_kl
deriving DecidableEq, Repr

/-- Tags of the image summaries of the visualization block
(lines 153-158 of `train.py`): per split, the inputs/outputs/targets
panels and the four prior samples. -/
inductive ImageTag where
  | inputs
  | outputs
  | targets
  | samples (k : ℕ)
deriving DecidableEq, Repr

/-- Dataset splits. -/
inductive Split where
  | train
  | test
deriving DecidableEq, Repr

/-- Observable events of one run of the driver, in program order:
scalar summaries with their value and step key, image summaries with
their step key, the execution point of the KL-weight adjustment decision
(lines 128-131), and a snapshot save carrying the stored epoch number
(line 135; the model and optimizer payloads are external state). -/
inductive Event where
  | scalarLog (tag : ScalarTag) (value : ℚ) (step : ℕ)
  | imageLog (split : Split) (tag : ImageTag) (step : ℕ)
  | weightAdjust
  | saveSnapshot (epoch : ℕ)
deriving DecidableEq, Repr

/-- The KL-weight scheduler, lines 128-131 of `train.py`:
if `args.target_loss is not None and loss_r < args.target_loss`, and
`loss_kl * weight_kl < loss_r and weight_kl < args.max_weight`, then
`weight_kl = min(weight_kl * 2, args.max_weight)`; otherwise the weight
is left unchanged. -/
def adjustWeight (target_loss : Option ℚ) (max_weight : ℚ)
    (loss_r loss_kl weight_kl : ℚ) : ℚ :=
  match target_loss with
  | none => weight_kl
  | some t =>
    if loss_r < t then
      if loss_kl * weight_kl < loss_r ∧ weight_kl < max_weight then
        min (weight_kl * 2) max_weight
      else
        weight_kl
    else
      weight_kl

/-- The training pass of one epoch, lines 85-107 of `train.py`: for each
batch, compute the combined loss `loss_r + weight_kl * loss_kl`
(line 97), emit the three scalar summaries at the current step
(lines 100-102), then advance the step by the batch size (line 103).
Returns the emitted events and the final step value. -/
def trainPass (weight_kl : ℚ) : List TrainBatch → ℕ → List Event × ℕ
  | [], step => ([], step)
  | b :: bs, step =>
    let loss := b.loss_r + weight_kl * b.loss_kl
    let evs := [Event.scalarLog .train_loss loss step,
                Event.scalarLog .train_loss_r b.loss_r step,
                Event.scalarLog .train_loss_kl b.loss_kl step]
    let rest := trainPass weight_kl bs (step + b.size)
    (evs ++ rest.1, rest.2)

/-- The test pass of one epoch, lines 112-121 of `train.py`: starting
from `(0, 0)`, accumulate `loss_r += mse * size / len(test)` and
`loss_kl += kld * size / len(test)` over the test batches.  Returns the
aggregated `(loss_r, loss_kl)` pair. -/
def testPass (testSize : ℕ) (bs : List TestBatch) : ℚ × ℚ :=
  bs.foldl
    (fun acc b =>
      (acc.1 + b.loss_r * (b.size : ℚ) / testSize,
       acc.2 + b.loss_kl * (b.size : ℚ) / (testSize : ℚ)))
    (0, 0)

/-- The visualization block for one split, lines 138-158 of `train.py`:
image summaries for inputs, outputs, targets and the four prior samples
(`k + 1` for `k in range(4)`), all keyed by the current step. -/
def visualizeSplit (s : Split) (step : ℕ) : List Event :=
  [Event.imageLog s .inputs step,
   Event.imageLog s .outputs step,
   Event.imageLog s .targets step,
   Event.imageLog s (.samples 1) step,
   Event.imageLog s (.samples 2) step,
   Event.imageLog s (.samples 3) step,
   Event.imageLog s (.samples 4) step]

/-- The snapshot/visualization block, lines 133-158 of `train.py`:
when `args.snapshot != 0 and (epoch + 1) % args.snapshot == 0`, save a
snapshot storing `epoch + 1` and run the visualization for both splits;
otherwise do nothing. -/
def snapshotBlock (snapshot : ℤ) (epoch : ℕ) (step : ℕ) : List Event :=
  if snapshot ≠ 0 ∧ ((epoch : ℤ) + 1) % snapshot = 0 then
    Event.saveSnapshot (epoch + 1) ::
      (visualizeSplit .train step ++ visualizeSplit .test step)
  else
    []

/-- The body of one epoch, lines 80-158 of `train.py`: set
`step = epoch * len(data['train'])` (line 81), run the training pass,
run the test pass and log its two aggregated scalars at the current step
(lines 124-125), execute the KL-weight adjustment decision
(lines 128-131), then the snapshot/visualization block.  Returns the
event trace, the final step value, and the updated KL weight. -/
def epochBody (cfg : Config) (trainSize testSize : ℕ) (epoch : ℕ)
    (trainBatches : List TrainBatch) (testBatches : List TestBatch)
    (weight_kl : ℚ) : List Event × ℕ × ℚ :=
  let tp := trainPass weight_kl trainBatches (epoch * trainSize)
  let losses := testPass testSize testBatches
  let testEvs := [Event.scalarLog .test_loss_r losses.1 tp.2,
                  Event.scalarLog .test_loss_kl losses.2 tp.2]
  let w := adjustWeight cfg.target_loss cfg.max_weight losses.1 losses.2 weight_kl
  (tp.1 ++ testEvs ++ Event.weightAdjust :: snapshotBlock cfg.snapshot epoch tp.2,
   tp.2, w)

/-- The epoch loop `for epoch in range(epoch, args.epochs)` (line 80),
parameterized by the first epoch index and the number of remaining
epochs, with the per-epoch batch data given by functions of the epoch
index (deterministic data order).  Returns the concatenated event trace
and the final KL weight. -/
def runFrom (cfg : Config) (trainSize testSize : ℕ)
    (trainData : ℕ → List TrainBatch) (testData : ℕ → List TestBatch) :
    ℕ → ℕ → ℚ → List Event × ℚ
  | _, 0, w => ([], w)
  | e, n + 1, w =>
    let body := epochBody cfg trainSize testSize e (trainData e) (testData e) w
    let rest := runFrom cfg trainSize testSize trainData testData (e + 1) n body.2.2
    (body.1 ++ rest.1, rest.2)

/-- The per-epoch global-step trajectory of the loop: for each executed
epoch, the triple (epoch index, step at the start of the epoch as set by
line 81, step after the epoch's training pass). -/
def runTraj (cfg : Config) (trainSize testSize : ℕ)
    (trainData : ℕ → List TrainBatch) (testData : ℕ → List TestBatch) :
    ℕ → ℕ → ℚ → List (ℕ × ℕ × ℕ)
  | _, 0, _ => []
  | e, n + 1, w =>
    let body := epochBody cfg trainSize testSize e (trainData e) (testData e) w
    (e, e * trainSize, body.2.1) ::
      runTraj cfg trainSize testSize trainData testData (e + 1) n body.2.2

/-- The sequence of KL-weight values along the loop: the weight before
the first executed epoch, then the weight after each epoch's scheduler
step. -/
def weightSeq (cfg : Config) (trainSize testSize : ℕ)
    (trainData : ℕ → List TrainBatch) (testData : ℕ → List TestBatch) :
    ℕ → ℕ → ℚ → List ℚ
  | _, 0, w => [w]
  | e, n + 1, w =>
    let body := epochBody cfg trainSize testSize e (trainData e) (testData e) w
    w :: weightSeq cfg trainSize testSize trainData testData (e + 1) n body.2.2

/-- The step keys of the scalar summaries of a trace, in emission
order. -/
def loggedSteps (evs : List Event) : List ℕ :=
  evs.filterMap fun e =>
    match e with
    | .scalarLog _ _ step => some step
    | _ => none

/-- Whether an event is a scalar summary. -/
def Event.isScalar : Event → Bool
  | .scalarLog _ _ _ => true
  | _ => false

/-- Whether an event is an image summary. -/
def Event.isImage : Event → Bool
  | .imageLog _ _ _ => true
  | _ => false

/-- Whether an event is a snapshot save. -/
def Event.isSnapshot : Event → Bool
  | .saveSnapshot _ => true
  | _ => false

/-- The weight scheduler exactly as claim C1 words it, case by case:
unset threshold, `Lr ≥ T`, `Lk * w ≥ Lr`, doubling path, and
at-or-above-ceiling path.  Used only to compare with `adjustWeight`,
which is translated from the source. -/
def schedulerSpec (target_loss : Option ℚ) (max_weight : ℚ)
    (loss_r loss_kl weight_kl : ℚ) : ℚ :=
  match target_loss with
  | none => weight_kl
  | some t =>
    if loss_r ≥ t then weight_kl
    else if loss_kl * weight_kl ≥ loss_r then weight_kl
    else if weight_kl < max_weight then min (2 * weight_kl) max_weight
    else weight_kl

/-- C1: the weight scheduler, applied to the epoch's average test losses,
the current weight, the threshold and the ceiling, is exactly the
five-case function stated by the claim: unchanged when the threshold is
unset, when `Lr ≥ T`, when `Lk * w ≥ Lr`, and when `w ≥ Wmax`; and
`min (2 * w) Wmax` when `Lr < T`, `Lk * w < Lr` and `w < Wmax`. -/
theorem c1_scheduler_cases (T : Option ℚ) (Wmax Lr Lk w : ℚ) :
    adjustWeight T Wmax Lr Lk w = schedulerSpec T Wmax Lr Lk w := by
  cases T with
  | none => rfl
  | some t =>
    simp only [adjustWeight, schedulerSpec]
    rcases lt_or_ge Lr t with h | h
    · rw [if_pos h, if_neg (not_le.mpr h)]
      rcases lt_or_ge (Lk * w) Lr with hk | hk
      · rw [if_neg (not_le.mpr hk)]
        rcases lt_or_ge w Wmax with hw | hw
        · rw [if_pos ⟨hk, hw⟩, if_pos hw, mul_comm]
        · rw [if_neg (fun hc => absurd hc.2 (not_lt.mpr hw)),
            if_neg (not_lt.mpr hw)]
      · rw [if_neg (fun hc => absurd hk (not_le.mpr hc.1)), if_pos hk]
    · rw [if_neg (not_lt.mpr h), if_pos h]

/-- The step value after a training pass is the start value plus the sum
of the batch sizes. -/
theorem trainPass_step (w : ℚ) (bs : List TrainBatch) (s : ℕ) :
    (trainPass w bs s).2 = s + (bs.map TrainBatch.size).sum := by
  induction bs generalizing s with
  | nil => simp [trainPass]
  | cons b bs ih => simp only [trainPass, ih, List.map_cons, List.sum_cons]; omega

/-- Every event emitted by the training pass is a scalar summary. -/
theorem trainPass_scalar (w : ℚ) (bs : List TrainBatch) (s : ℕ) :
    ∀ e ∈ (trainPass w bs s).1, e.isScalar = true := by
  induction bs generalizing s with
  | nil => simp [trainPass]
  | cons b bs ih =>
    intro e he
    simp only [trainPass, List.mem_append, List.mem_cons] at he
    rcases he with (h | h | h | h) | h
    · rw [h]; rfl
    · rw [h]; rfl
    · rw [h]; rfl
    · exact absurd h (List.not_mem_nil e)
    · exact ih _ e h

/-- C3: after an epoch's training pass, the global step equals the step
at the start of the epoch (`epoch * len(data['train'])`) plus the sum of
the batch sizes of the training batches processed in that epoch. -/
theorem c3_step_bookkeeping (cfg : Config) (trainSize testSize epoch : ℕ)
    (tb : List TrainBatch) (sb : List TestBatch) (w : ℚ) :
    (epochBody cfg trainSize testSize epoch tb sb w).2.1 =
      epoch * trainSize + (tb.map TrainBatch.size).sum := by
  simp only [epochBody]
  exact trainPass_step w tb (epoch * trainSize)

/-- C5 counterexample: for a training batch of size 5, the three scalars
are logged at the step value before the increment (here 0), while the
claim demands the already-advanced value (here 5). -/
theorem c5_counterexample :
    loggedSteps (trainPass 0 [⟨5, 1, 2⟩] 0).1 = [0, 0, 0] ∧
      (trainPass 0 [⟨5, 1, 2⟩] 0).2 = 5 ∧ (0 : ℕ) ≠ 5 := by
  refine ⟨rfl, rfl, by decide⟩

/-- C5 amended: for every training batch, the driver logs the three
scalars (combined loss `loss_r + w * loss_kl`, reconstruction loss, KL
loss) keyed by the step value before advancing, and only then advances
the step counter by the batch size for the remaining batches. -/
theorem c5_log_before_advance (w : ℚ) (b : TrainBatch) (bs : List TrainBatch) (s : ℕ) :
    (trainPass w (b :: bs) s).1 =
      [Event.scalarLog .train_loss (b.loss_r + w * b.loss_kl) s,
       Event.scalarLog .train_loss_r b.loss_r s,
       Event.scalarLog .train_loss_kl b.loss_kl s] ++
        (trainPass w bs (s + b.size)).1 := rfl

/-- Closed form of the test-pass fold from an arbitrary accumulator. -/
theorem testPass_foldl (testSize : ℕ) (bs : List TestBatch) (a c : ℚ) :
    bs.foldl
        (fun acc b =>
          (acc.1 + b.loss_r * (b.size : ℚ) / testSize,
           acc.2 + b.loss_kl * (b.size : ℚ) / (testSize : ℚ)))
        (a, c) =
      (a + (bs.map fun b => b.loss_r * (b.size : ℚ)).sum / testSize,
       c + (bs.map fun b => b.loss_kl * (b.size : ℚ)).sum / (testSize : ℚ)) := by
  induction bs generalizing a c with
  | nil => simp
  | cons b bs ih =>
    simp only [List.foldl_cons, ih, List.map_cons, List.sum_cons]
    refine Prod.ext ?_ ?_ <;> simp <;> ring

/-- Closed form of the test-pass aggregation: the sum of
(batch loss × batch size) over all test batches, divided by the test-set
size. -/
theorem testPass_eq (testSize : ℕ) (bs : List TestBatch) :
    testPass testSize bs =
      ((bs.map fun b => b.loss_r * (b.size : ℚ)).sum / testSize,
       (bs.map fun b => b.loss_kl * (b.size : ℚ)).sum / (testSize : ℚ)) := by
  simpa using testPass_foldl testSize bs 0 0

/-- C6 counterexample: on the spec's concrete scenario — test batches of
sizes [3, 5, 2] with per-batch reconstruction losses [1, 2, 3] — the
aggregated reconstruction loss is 19/10 = 1.9, not 2 as the claim
states. -/
theorem c6_counterexample :
    (testPass 10 [⟨3, 1, 0⟩, ⟨5, 2, 0⟩, ⟨2, 3, 0⟩]).1 = 19 / 10 ∧
      (19 / 10 : ℚ) ≠ 2 := by
  constructor
  · rw [testPass_eq]; norm_num
  · norm_num

/-- C6 amended: the aggregated test losses are the sample-count-weighted
averages of the per-batch losses — the sum of (batch loss × batch size)
divided by the test-set size; on the spec's scenario of batch sizes
[3, 5, 2] with reconstruction losses [1, 2, 3] the aggregate is exactly
(3·1 + 5·2 + 2·3)/10 = 19/10 = 1.9; and the epoch trace reports exactly
the weighted-average value for the test reconstruction loss. -/
theorem c6_test_loss_average :
    (∀ (testSize : ℕ) (bs : List TestBatch),
      testPass testSize bs =
        ((bs.map fun b => b.loss_r * (b.size : ℚ)).sum / testSize,
         (bs.map fun b => b.loss_kl * (b.size : ℚ)).sum / (testSize : ℚ))) ∧
    (testPass 10 [⟨3, 1, 0⟩, ⟨5, 2, 0⟩, ⟨2, 3, 0⟩]).1 = 19 / 10 ∧
    ∀ (cfg : Config) (trainSize testSize epoch : ℕ)
      (tb : List TrainBatch) (sb : List TestBatch) (w : ℚ),
      Event.scalarLog .test_loss_r
          ((sb.map fun b => b.loss_r * (b.size : ℚ)).sum / (testSize : ℚ))
          (epochBody cfg trainSize testSize epoch tb sb w).2.1 ∈
        (epochBody cfg trainSize testSize epoch tb sb w).1 := by
  refine ⟨testPass_eq, ?_, ?_⟩
  · rw [testPass_eq]; norm_num
  · intro cfg trainSize testSize epoch tb sb w
    have hA : (testPass testSize sb).1 =
        (sb.map fun b => b.loss_r * (b.size : ℚ)).sum / (testSize : ℚ) := by
      rw [testPass_eq]
    rw [← hA]
    simp [epochBody]

/-- The KL-weight update of one epoch is the scheduler applied to the
aggregated test losses. -/
theorem epochBody_weight (cfg : Config) (trainSize testSize epoch : ℕ)
    (tb : List TrainBatch) (sb : List TestBatch) (w : ℚ) :
    (epochBody cfg trainSize testSize epoch tb sb w).2.2 =
      adjustWeight cfg.target_loss cfg.max_weight
        (testPass testSize sb).1 (testPass testSize sb).2 w := rfl

/-- Zero is a fixed point of a single scheduler step, for every
threshold, ceiling and pair of losses. -/
theorem adjustWeight_zero (T : Option ℚ) (Wmax Lr Lk : ℚ) :
    adjustWeight T Wmax Lr Lk 0 = 0 := by
  cases T with
  | none => rfl
  | some t =>
    simp only [adjustWeight]
    split_ifs with h1 h2
    · rw [zero_mul, min_eq_left h2.2.le]
    · rfl
    · rfl

/-- C10: zero is a fixed point of the weight scheduler — a single step
maps weight 0 to 0 whatever the losses, threshold and ceiling (on the
update path because `min (0 * 2) Wmax = 0` for the ceiling the guard
admits), and along any run starting at weight 0 the weight sequence is
identically 0, so the adaptive scheduling never activates a KL term that
starts at weight 0. -/
theorem c10_zero_fixed_point :
    (∀ (T : Option ℚ) (Wmax Lr Lk : ℚ), adjustWeight T Wmax Lr Lk 0 = 0) ∧
    ∀ (cfg : Config) (trainSize testSize : ℕ)
      (tD : ℕ → List TrainBatch) (sD : ℕ → List TestBatch) (e n : ℕ),
      weightSeq cfg trainSize testSize tD sD e n 0 = List.replicate (n + 1) 0 := by
  refine ⟨adjustWeight_zero, ?_⟩
  intro cfg trainSize testSize tD sD e n
  induction n generalizing e with
  | zero => rfl
  | succ n ih =>
    simp only [weightSeq, epochBody_weight, adjustWeight_zero, ih,
      List.replicate_succ]

/-- A scalar summary is neither a snapshot save nor an image summary. -/
theorem scalar_not_snap {e : Event} (h : e.isScalar = true) :
    e.isSnapshot = false ∧ e.isImage = false := by
  cases e <;> simp_all [Event.isScalar, Event.isSnapshot, Event.isImage]

/-- Every event of the visualization block is an image summary. -/
theorem visualizeSplit_image (s : Split) (step : ℕ) :
    ∀ e ∈ visualizeSplit s step, e.isImage = true := by
  intro e he
  simp only [visualizeSplit, List.mem_cons, List.not_mem_nil, or_false] at he
  rcases he with rfl | rfl | rfl | rfl | rfl | rfl | rfl <;> rfl

/-- Every event of the snapshot/visualization block is a snapshot save
or an image summary. -/
theorem snapshotBlock_events (snapshot : ℤ) (epoch step : ℕ) :
    ∀ e ∈ snapshotBlock snapshot epoch step,
      e.isSnapshot = true ∨ e.isImage = true := by
  intro e he
  simp only [snapshotBlock] at he
  split_ifs at he with hc
  · rcases List.mem_cons.mp he with rfl | hmem
    · exact Or.inl rfl
    · rcases List.mem_append.mp hmem with h | h
      · exact Or.inr (visualizeSplit_image _ _ e h)
      · exact Or.inr (visualizeSplit_image _ _ e h)
  · exact absurd he (List.not_mem_nil e)

/-- A list of scalar, snapshot and image events contains no occurrence
of the weight-adjustment marker. -/
theorem count_weightAdjust_zero {l : List Event}
    (h : ∀ e ∈ l, e.isScalar = true ∨ e.isSnapshot = true ∨ e.isImage = true) :
    l.count Event.weightAdjust = 0 := by
  rw [List.count_eq_zero]
  intro hmem
  rcases h _ hmem with h' | h' | h' <;> exact absurd h' (by decide)

/-- One scheduler step preserves the weight interval `[0, Wmax]` and
never decreases the weight: on the update path the guard gives
`w < Wmax`, and `w ≤ min (w * 2) Wmax` because `0 ≤ w`. -/
theorem adjustWeight_bounds (T : Option ℚ) (Wmax Lr Lk w : ℚ)
    (h0 : 0 ≤ w) (h1 : w ≤ Wmax) :
    w ≤ adjustWeight T Wmax Lr Lk w ∧
      0 ≤ adjustWeight T Wmax Lr Lk w ∧ adjustWeight T Wmax Lr Lk w ≤ Wmax := by
  cases T with
  | none => exact ⟨le_refl w, h0, h1⟩
  | some t =>
    simp only [adjustWeight]
    split_ifs with hlt hc
    · exact ⟨le_min (by linarith) h1,
        le_min (by linarith) (h0.trans h1), min_le_right _ _⟩
    · exact ⟨le_refl w, h0, h1⟩
    · exact ⟨le_refl w, h0, h1⟩

/-- The weight sequence of a run starts with the initial weight. -/
theorem weightSeq_head (cfg : Config) (trainSize testSize : ℕ)
    (tD : ℕ → List TrainBatch) (sD : ℕ → List TestBatch) (e n : ℕ) (w : ℚ) :
    (weightSeq cfg trainSize testSize tD sD e n w).head? = some w := by
  cases n <;> rfl

/-- C2 counterexample: with configured initial weight -1 (threshold 10,
ceiling 1000), one epoch with test losses Lr = 5 and Lk = 100 drives the
weight from -1 to -2: the weight is negative throughout and decreases,
refuting non-negativity and monotonicity for arbitrary configured
initial weights. -/
theorem c2_counterexample :
    weightSeq ⟨some 10, 1000, 0, 1⟩ 1 1 (fun _ => [])
        (fun _ => [⟨1, 5, 100⟩]) 0 1 (-1) = [-1, -2] ∧
      ¬((0 : ℚ) ≤ -1) ∧ ¬((-1 : ℚ) ≤ -2) := by
  refine ⟨?_, by norm_num, by norm_num⟩
  rw [show weightSeq ⟨some 10, 1000, 0, 1⟩ 1 1 (fun _ => [])
      (fun _ => [⟨1, 5, 100⟩]) 0 1 (-1) =
    [-1, (epochBody ⟨some 10, 1000, 0, 1⟩ 1 1 0 [] [⟨1, 5, 100⟩] (-1)).2.2]
    from rfl]
  rw [epochBody_weight]
  norm_num [testPass_eq, adjustWeight, min_def]

/-- C2 amended: for every run whose configured initial weight lies in
the interval `[0, Wmax]`, the KL weight is non-negative, never exceeds
the ceiling `Wmax`, and the weight after each epoch's scheduler step is
at least the weight before it. -/
theorem c2_weight_invariant (cfg : Config) (trainSize testSize : ℕ)
    (tD : ℕ → List TrainBatch) (sD : ℕ → List TestBatch) (e n : ℕ) (w : ℚ)
    (h0 : 0 ≤ w) (h1 : w ≤ cfg.max_weight) :
    List.Chain' (· ≤ ·) (weightSeq cfg trainSize testSize tD sD e n w) ∧
      ∀ x ∈ weightSeq cfg trainSize testSize tD sD e n w,
        0 ≤ x ∧ x ≤ cfg.max_weight := by
  induction n generalizing e w with
  | zero =>
    refine ⟨List.chain'_singleton w, ?_⟩
    intro x hx
    rw [show weightSeq cfg trainSize testSize tD sD e 0 w = [w] from rfl,
      List.mem_singleton] at hx
    exact hx ▸ ⟨h0, h1⟩
  | succ n ih =>
    have hb := adjustWeight_bounds cfg.target_loss cfg.max_weight
      (testPass testSize (sD e)).1 (testPass testSize (sD e)).2 w h0 h1
    rw [show weightSeq cfg trainSize testSize tD sD e (n + 1) w =
      w :: weightSeq cfg trainSize testSize tD sD (e + 1) n
        (epochBody cfg trainSize testSize e (tD e) (sD e) w).2.2 from rfl]
    rw [epochBody_weight] at *
    obtain ⟨hchain, hmem⟩ := ih (e + 1) _ hb.2.1 hb.2.2
    refine ⟨List.chain'_cons'.mpr ⟨?_, hchain⟩, ?_⟩
    · intro y hy
      rw [weightSeq_head] at hy
      rw [Option.mem_some_iff] at hy
      exact hy ▸ hb.1
    · intro x hx
      rcases List.mem_cons.mp hx with rfl | hx
      · exact ⟨h0, h1⟩
      · exact hmem x hx

/-- Witness for the amended C2 at a concrete configuration. -/
theorem c2_weight_invariant_witness :
    List.Chain' (· ≤ ·)
      (weightSeq ⟨none, 1, 0, 1⟩ 1 1 (fun _ => []) (fun _ => []) 0 1 0) :=
  (c2_weight_invariant ⟨none, 1, 0, 1⟩ 1 1 (fun _ => []) (fun _ => []) 0 1 0
    (by decide) (by decide)).1

/-- C7: if the snapshot interval is 0, no epoch ever emits a snapshot
save or an image summary; if the interval is nonzero, the epoch trace
contains a snapshot save storing `epoch + 1` together with the
visualization exactly when the interval divides `epoch + 1`. -/
theorem c7_snapshot_cadence (cfg : Config) (trainSize testSize epoch : ℕ)
    (tb : List TrainBatch) (sb : List TestBatch) (w : ℚ) :
    (cfg.snapshot = 0 →
      ∀ e ∈ (epochBody cfg trainSize testSize epoch tb sb w).1,
        e.isSnapshot = false ∧ e.isImage = false) ∧
    (cfg.snapshot ≠ 0 →
      ((Event.saveSnapshot (epoch + 1) ∈
          (epochBody cfg trainSize testSize epoch tb sb w).1 ∧
        ∃ e ∈ (epochBody cfg trainSize testSize epoch tb sb w).1,
          e.isImage = true) ↔
        cfg.snapshot ∣ ((epoch : ℤ) + 1))) := by
  constructor
  · intro hz e he
    rw [show (epochBody cfg trainSize testSize epoch tb sb w).1 =
      (trainPass w tb (epoch * trainSize)).1 ++
        [Event.scalarLog .test_loss_r (testPass testSize sb).1
          (trainPass w tb (epoch * trainSize)).2,
         Event.scalarLog .test_loss_kl (testPass testSize sb).2
          (trainPass w tb (epoch * trainSize)).2] ++
        Event.weightAdjust ::
          snapshotBlock cfg.snapshot epoch
            (trainPass w tb (epoch * trainSize)).2 from rfl] at he
    have hempty : snapshotBlock cfg.snapshot epoch
        (trainPass w tb (epoch * trainSize)).2 = [] := by
      rw [snapshotBlock, if_neg]
      intro hc
      exact hc.1 hz
    rw [hempty] at he
    rcases List.mem_append.mp he with h | h
    · rcases List.mem_append.mp h with h | h
      · exact scalar_not_snap (trainPass_scalar w tb (epoch * trainSize) e h)
      · rcases List.mem_cons.mp h with rfl | h
        · exact ⟨rfl, rfl⟩
        · rcases List.mem_cons.mp h with rfl | h
          · exact ⟨rfl, rfl⟩
          · exact absurd h (List.not_mem_nil e)
    · rcases List.mem_cons.mp h with rfl | h
      · exact ⟨rfl, rfl⟩
      · exact absurd h (List.not_mem_nil e)
  · intro hnz
    constructor
    · rintro ⟨hsnap, -⟩
      by_contra hdvd
      have hmod : ¬(((epoch : ℤ) + 1) % cfg.snapshot = 0) := by
        intro hm
        exact hdvd (Int.dvd_of_emod_eq_zero hm)
      have hempty : snapshotBlock cfg.snapshot epoch
          (trainPass w tb (epoch * trainSize)).2 = [] := by
        rw [snapshotBlock, if_neg]
        intro hc
        exact hmod hc.2
      rw [show (epochBody cfg trainSize testSize epoch tb sb w).1 =
        (trainPass w tb (epoch * trainSize)).1 ++
          [Event.scalarLog .test_loss_r (testPass testSize sb).1
            (trainPass w tb (epoch * trainSize)).2,
           Event.scalarLog .test_loss_kl (testPass testSize sb).2
            (trainPass w tb (epoch * trainSize)).2] ++
          Event.weightAdjust ::
            snapshotBlock cfg.snapshot epoch
              (trainPass w tb (epoch * trainSize)).2 from rfl, hempty] at hsnap
      rcases List.mem_append.mp hsnap with h | h
      · rcases List.mem_append.mp h with h | h
        · have hsc := trainPass_scalar w tb (epoch * trainSize) _ h
          simp [Event.isScalar] at hsc
        · rcases List.mem_cons.mp h with h | h
          · exact Event.noConfusion h
          · rcases List.mem_cons.mp h with h | h
            · exact Event.noConfusion h
            · exact absurd h (List.not_mem_nil _)
      · rcases List.mem_cons.mp h with h | h
        · exact Event.noConfusion h
        · exact absurd h (List.not_mem_nil _)
    · intro hdvd
      have hfull : snapshotBlock cfg.snapshot epoch
          (trainPass w tb (epoch * trainSize)).2 =
          Event.saveSnapshot (epoch + 1) ::
            (visualizeSplit .train (trainPass w tb (epoch * trainSize)).2 ++
             visualizeSplit .test (trainPass w tb (epoch * trainSize)).2) := by
        rw [snapshotBlock, if_pos ⟨hnz, Int.emod_eq_zero_of_dvd hdvd⟩]
      constructor
      · rw [show (epochBody cfg trainSize testSize epoch tb sb w).1 =
          (trainPass w tb (epoch * trainSize)).1 ++
            [Event.scalarLog .test_loss_r (testPass testSize sb).1
              (trainPass w tb (epoch * trainSize)).2,
             Event.scalarLog .test_loss_kl (testPass testSize sb).2
              (trainPass w tb (epoch * trainSize)).2] ++
            Event.weightAdjust ::
              snapshotBlock cfg.snapshot epoch
                (trainPass w tb (epoch * trainSize)).2 from rfl, hfull]
        simp
      · refine ⟨Event.imageLog .train .inputs
          (trainPass w tb (epoch * trainSize)).2, ?_, rfl⟩
        rw [show (epochBody cfg trainSize testSize epoch tb sb w).1 =
          (trainPass w tb (epoch * trainSize)).1 ++
            [Event.scalarLog .test_loss_r (testPass testSize sb).1
              (trainPass w tb (epoch * trainSize)).2,
             Event.scalarLog .test_loss_kl (testPass testSize sb).2
              (trainPass w tb (epoch * trainSize)).2] ++
            Event.weightAdjust ::
              snapshotBlock cfg.snapshot epoch
                (trainPass w tb (epoch * trainSize)).2 from rfl, hfull]
        simp [visualizeSplit]

/-- Witness for C7 at a concrete configuration: interval 2 at epoch 1
(so `epoch + 1 = 2` is divisible) stores a snapshot labelled 2. -/
theorem c7_snapshot_cadence_witness :
    Event.saveSnapshot 2 ∈ (epochBody ⟨none, 0, 2, 5⟩ 1 1 1 [] [] 0).1 :=
  (((c7_snapshot_cadence ⟨none, 0, 2, 5⟩ 1 1 1 [] [] 0).2
    (by decide)).mpr (by decide)).1

/-- C8: in every epoch the weight-scheduler decision executes exactly
once, after the entire test pass — all scalar summaries of the epoch,
including the two aggregated test scalars, precede it — and before any
snapshot save or visualization of that epoch. -/
theorem c8_adjust_after_test (cfg : Config) (trainSize testSize epoch : ℕ)
    (tb : List TrainBatch) (sb : List TestBatch) (w : ℚ) :
    ∃ pre post,
      (epochBody cfg trainSize testSize epoch tb sb w).1 =
        pre ++ Event.weightAdjust :: post ∧
      (∀ e ∈ pre, e.isScalar = true) ∧
      (∀ e ∈ post, e.isSnapshot = true ∨ e.isImage = true) ∧
      (∃ v s, Event.scalarLog .test_loss_r v s ∈ pre) ∧
      (∃ v s, Event.scalarLog .test_loss_kl v s ∈ pre) ∧
      (epochBody cfg trainSize testSize epoch tb sb w).1.count
        Event.weightAdjust = 1 := by
  refine ⟨(trainPass w tb (epoch * trainSize)).1 ++
      [Event.scalarLog .test_loss_r (testPass testSize sb).1
        (trainPass w tb (epoch * trainSize)).2,
       Event.scalarLog .test_loss_kl (testPass testSize sb).2
        (trainPass w tb (epoch * trainSize)).2],
    snapshotBlock cfg.snapshot epoch (trainPass w tb (epoch * trainSize)).2,
    ?_, ?_, ?_, ?_, ?_, ?_⟩
  · rw [show (epochBody cfg trainSize testSize epoch tb sb w).1 =
      (trainPass w tb (epoch * trainSize)).1 ++
        [Event.scalarLog .test_loss_r (testPass testSize sb).1
          (trainPass w tb (epoch * trainSize)).2,
         Event.scalarLog .test_loss_kl (testPass testSize sb).2
          (trainPass w tb (epoch * trainSize)).2] ++
        Event.weightAdjust ::
          snapshotBlock cfg.snapshot epoch
            (trainPass w tb (epoch * trainSize)).2 from rfl,
      List.append_assoc]
  · intro e he
    rcases List.mem_append.mp he with h | h
    · exact trainPass_scalar w tb (epoch * trainSize) e h
    · rcases List.mem_cons.mp h with rfl | h
      · rfl
      · rcases List.mem_cons.mp h with rfl | h
        · rfl
        · exact absurd h (List.not_mem_nil e)
  · exact snapshotBlock_events cfg.snapshot epoch _
  · exact ⟨(testPass testSize sb).1, (trainPass w tb (epoch * trainSize)).2,
      by simp⟩
  · exact ⟨(testPass testSize sb).2, (trainPass w tb (epoch * trainSize)).2,
      by simp⟩
  · have h1 : (trainPass w tb (epoch * trainSize)).1.count
        Event.weightAdjust = 0 :=
      count_weightAdjust_zero
        (fun e he => Or.inl (trainPass_scalar w tb (epoch * trainSize) e he))
    have h2 : (snapshotBlock cfg.snapshot epoch
        (trainPass w tb (epoch * trainSize)).2).count Event.weightAdjust = 0 :=
      count_weightAdjust_zero
        (fun e he => Or.inr (snapshotBlock_events cfg.snapshot epoch _ e he))
    rw [show (epochBody cfg trainSize testSize epoch tb sb w).1 =
      (trainPass w tb (epoch * trainSize)).1 ++
        [Event.scalarLog .test_loss_r (testPass testSize sb).1
          (trainPass w tb (epoch * trainSize)).2,
         Event.scalarLog .test_loss_kl (testPass testSize sb).2
          (trainPass w tb (epoch * trainSize)).2] ++
        Event.weightAdjust ::
          snapshotBlock cfg.snapshot epoch
            (trainPass w tb (epoch * trainSize)).2 from rfl]
    simp [List.count_append, List.count_cons, h1, h2]

/-- Witness for C8 at a concrete configuration: the epoch trace holds
exactly one weight-adjustment decision. -/
theorem c8_adjust_after_test_witness :
    (epochBody ⟨none, 0, 0, 1⟩ 1 1 0 [] [] 0).1.count Event.weightAdjust = 1 := by
  obtain ⟨pre, post, -, -, -, -, -, hcount⟩ :=
    c8_adjust_after_test ⟨none, 0, 0, 1⟩ 1 1 0 [] [] 0
  exact hcount

/-- The per-epoch global-step trajectory does not depend on the running
KL weight: the step bookkeeping of line 81 and line 103 never reads
`weight_kl`. -/
theorem runTraj_weight_indep (cfg : Config) (tS sS : ℕ)
    (tD : ℕ → List TrainBatch) (sD : ℕ → List TestBatch) :
    ∀ (n e : ℕ) (w1 w2 : ℚ),
      runTraj cfg tS sS tD sD e n w1 = runTraj cfg tS sS tD sD e n w2 := by
  intro n
  induction n with
  | zero => intro e w1 w2; rfl
  | succ n ih =>
    intro e w1 w2
    have hh : ∀ w : ℚ, (epochBody cfg tS sS e (tD e) (sD e) w).2.1 =
        e * tS + ((tD e).map TrainBatch.size).sum := by
      intro w
      have hbase : (epochBody cfg tS sS e (tD e) (sD e) w).2.1 =
          (trainPass w (tD e) (e * tS)).2 := rfl
      rw [hbase, trainPass_step]
    rw [show runTraj cfg tS sS tD sD e (n + 1) w1 =
      (e, e * tS, (epochBody cfg tS sS e (tD e) (sD e) w1).2.1) ::
        runTraj cfg tS sS tD sD (e + 1) n
          (epochBody cfg tS sS e (tD e) (sD e) w1).2.2 from rfl]
    rw [show runTraj cfg tS sS tD sD e (n + 1) w2 =
      (e, e * tS, (epochBody cfg tS sS e (tD e) (sD e) w2).2.1) ::
        runTraj cfg tS sS tD sD (e + 1) n
          (epochBody cfg tS sS e (tD e) (sD e) w2).2.2 from rfl]
    rw [hh w1, hh w2,
      ih (e + 1) (epochBody cfg tS sS e (tD e) (sD e) w1).2.2
        (epochBody cfg tS sS e (tD e) (sD e) w2).2.2]

/-- Dropping the first `m` entries of a trajectory yields the trajectory
started `m` epochs later. -/
theorem runTraj_drop (cfg : Config) (tS sS : ℕ)
    (tD : ℕ → List TrainBatch) (sD : ℕ → List TestBatch) :
    ∀ (m n e : ℕ) (w : ℚ),
      (runTraj cfg tS sS tD sD e (m + n) w).drop m =
        runTraj cfg tS sS tD sD (e + m) n w := by
  intro m
  induction m with
  | zero => intro n e w; simp
  | succ m ih =>
    intro n e w
    rw [show m + 1 + n = (m + n) + 1 by omega]
    rw [show runTraj cfg tS sS tD sD e ((m + n) + 1) w =
      (e, e * tS, (epochBody cfg tS sS e (tD e) (sD e) w).2.1) ::
        runTraj cfg tS sS tD sD (e + 1) (m + n)
          (epochBody cfg tS sS e (tD e) (sD e) w).2.2 from rfl]
    rw [List.drop_succ_cons,
      ih n (e + 1) (epochBody cfg tS sS e (tD e) (sD e) w).2.2,
      runTraj_weight_indep cfg tS sS tD sD n (e + 1 + m)
        (epochBody cfg tS sS e (tD e) (sD e) w).2.2 w,
      show e + 1 + m = e + (m + 1) by omega]

/-- A trajectory of `n` remaining epochs has `n` entries. -/
theorem runTraj_length (cfg : Config) (tS sS : ℕ)
    (tD : ℕ → List TrainBatch) (sD : ℕ → List TestBatch) :
    ∀ (n e : ℕ) (w : ℚ), (runTraj cfg tS sS tD sD e n w).length = n := by
  intro n
  induction n with
  | zero => intro e w; rfl
  | succ n ih =>
    intro e w
    rw [show runTraj cfg tS sS tD sD e (n + 1) w =
      (e, e * tS, (epochBody cfg tS sS e (tD e) (sD e) w).2.1) ::
        runTraj cfg tS sS tD sD (e + 1) n
          (epochBody cfg tS sS e (tD e) (sD e) w).2.2 from rfl]
    rw [List.length_cons, ih]

/-- C9: with deterministic data order, a run whose epoch counter is
restored to `r` from a checkpoint (whatever its running KL weight `w1`,
which checkpoints do not store) has, for every epoch it executes, the
same start-of-epoch and end-of-epoch global-step values as the epochs
`≥ r` of an uninterrupted run over the same data: its trajectory is the
uninterrupted trajectory with the first `r` epochs dropped. -/
theorem c9_resume_trajectory (cfg : Config) (trainSize testSize : ℕ)
    (tD : ℕ → List TrainBatch) (sD : ℕ → List TestBatch)
    (r E : ℕ) (w1 w2 : ℚ) :
    runTraj cfg trainSize testSize tD sD r (E - r) w1 =
      (runTraj cfg trainSize testSize tD sD 0 E w2).drop r := by
  rcases le_or_lt r E with h | h
  · have key := runTraj_drop cfg trainSize testSize tD sD r (E - r) 0 w2
    rw [show r + (E - r) = E by omega] at key
    rw [key, zero_add]
    exact runTraj_weight_indep cfg trainSize testSize tD sD (E - r) r w1 w2
  · rw [show E - r = 0 by omega,
      List.drop_eq_nil_of_le
        (by rw [runTraj_length cfg trainSize testSize tD sD E 0 w2]; omega)]
    rfl

/-- Scalar-step extraction distributes over trace concatenation. -/
theorem loggedSteps_append (a b : List Event) :
    loggedSteps (a ++ b) = loggedSteps a ++ loggedSteps b :=
  List.filterMap_append a b _

/-- A trace without scalar summaries contributes no logged steps. -/
theorem loggedSteps_eq_nil {l : List Event}
    (h : ∀ e ∈ l, e.isScalar = false) : loggedSteps l = [] := by
  induction l with
  | nil => rfl
  | cons e l ih =>
    have he := h e (List.mem_cons_self e l)
    have hrest := ih fun x hx => h x (List.mem_cons_of_mem e hx)
    cases e with
    | scalarLog tag v s => simp [Event.isScalar] at he
    | imageLog s t st => simpa [loggedSteps, List.filterMap] using hrest
    | weightAdjust => simpa [loggedSteps, List.filterMap] using hrest
    | saveSnapshot ep => simpa [loggedSteps, List.filterMap] using hrest

/-- The steps logged by a training pass are non-decreasing and all lie
between the starting step and the final step of the pass. -/
theorem trainPass_loggedSteps (w : ℚ) (bs : List TrainBatch) (s : ℕ) :
    List.Pairwise (· ≤ ·) (loggedSteps (trainPass w bs s).1) ∧
      ∀ x ∈ loggedSteps (trainPass w bs s).1,
        s ≤ x ∧ x ≤ (trainPass w bs s).2 := by
  induction bs generalizing s with
  | nil =>
    constructor
    · exact List.Pairwise.nil
    · intro x hx
      exact absurd hx (List.not_mem_nil x)
  | cons b bs ih =>
    obtain ⟨hp, hb⟩ := ih (s + b.size)
    have hsteps : loggedSteps (trainPass w (b :: bs) s).1 =
        s :: s :: s :: loggedSteps (trainPass w bs (s + b.size)).1 := rfl
    have hfin : (trainPass w (b :: bs) s).2 =
        (trainPass w bs (s + b.size)).2 := rfl
    have hfin2 : s ≤ (trainPass w bs (s + b.size)).2 := by
      rw [trainPass_step]; omega
    have hlow : ∀ x ∈ loggedSteps (trainPass w bs (s + b.size)).1, s ≤ x := by
      intro x hx
      have := (hb x hx).1
      omega
    rw [hsteps, hfin]
    constructor
    · refine List.pairwise_cons.mpr ⟨?_, List.pairwise_cons.mpr ⟨?_,
        List.pairwise_cons.mpr ⟨?_, hp⟩⟩⟩
      · intro y hy
        rcases List.mem_cons.mp hy with rfl | hy
        · exact le_refl _
        · rcases List.mem_cons.mp hy with rfl | hy
          · exact le_refl _
          · exact hlow y hy
      · intro y hy
        rcases List.mem_cons.mp hy with rfl | hy
        · exact le_refl _
        · exact hlow y hy
      · exact hlow
    · intro x hx
      rcases List.mem_cons.mp hx with rfl | hx
      · exact ⟨le_refl x, hfin2⟩
      · rcases List.mem_cons.mp hx with rfl | hx
        · exact ⟨le_refl x, hfin2⟩
        · rcases List.mem_cons.mp hx with rfl | hx
          · exact ⟨le_refl x, hfin2⟩
          · exact ⟨hlow x hx, (hb x hx).2⟩

/-- The steps an epoch logs are the training-pass steps followed by the
two test-scalar steps, both equal to the end-of-epoch step; the
snapshot/visualization block logs no scalars. -/
theorem epoch_loggedSteps (cfg : Config) (tS sS e : ℕ) (tb : List TrainBatch)
    (sb : List TestBatch) (w : ℚ) :
    loggedSteps (epochBody cfg tS sS e tb sb w).1 =
      loggedSteps (trainPass w tb (e * tS)).1 ++
        [(trainPass w tb (e * tS)).2, (trainPass w tb (e * tS)).2] := by
  rw [show (epochBody cfg tS sS e tb sb w).1 =
    (trainPass w tb (e * tS)).1 ++
      [Event.scalarLog .test_loss_r (testPass sS sb).1
        (trainPass w tb (e * tS)).2,
       Event.scalarLog .test_loss_kl (testPass sS sb).2
        (trainPass w tb (e * tS)).2] ++
      Event.weightAdjust ::
        snapshotBlock cfg.snapshot e (trainPass w tb (e * tS)).2 from rfl]
  rw [loggedSteps_append, loggedSteps_append]
  have hsnap : loggedSteps (Event.weightAdjust ::
      snapshotBlock cfg.snapshot e (trainPass w tb (e * tS)).2) = [] := by
    refine loggedSteps_eq_nil ?_
    intro x hx
    rcases List.mem_cons.mp hx with rfl | hx
    · rfl
    · rcases snapshotBlock_events cfg.snapshot e _ x hx with h | h <;>
        (cases x <;> simp_all [Event.isScalar, Event.isSnapshot, Event.isImage])
  rw [hsnap, List.append_nil]
  rfl

/-- With each epoch's training batches covering the training set, the
steps an epoch logs are non-decreasing and lie between `e * tS` and
`(e + 1) * tS`. -/
theorem epoch_steps_sorted (cfg : Config) (tS sS e : ℕ) (tb : List TrainBatch)
    (sb : List TestBatch) (w : ℚ) (hc : (tb.map TrainBatch.size).sum = tS) :
    List.Pairwise (· ≤ ·) (loggedSteps (epochBody cfg tS sS e tb sb w).1) ∧
      ∀ x ∈ loggedSteps (epochBody cfg tS sS e tb sb w).1,
        e * tS ≤ x ∧ x ≤ (e + 1) * tS := by
  obtain ⟨hp, hb⟩ := trainPass_loggedSteps w tb (e * tS)
  have hend : (trainPass w tb (e * tS)).2 = (e + 1) * tS := by
    rw [trainPass_step, hc]; ring
  rw [epoch_loggedSteps, hend]
  constructor
  · rw [List.pairwise_append]
    refine ⟨hp, ?_, ?_⟩
    · refine List.pairwise_cons.mpr ⟨?_, List.pairwise_singleton _ _⟩
      intro y hy
      rw [List.mem_singleton] at hy
      exact hy ▸ le_refl _
    · intro x hx y hy
      have hx2 := (hb x hx).2
      rw [hend] at hx2
      rcases List.mem_cons.mp hy with rfl | hy
      · exact hx2
      · rw [List.mem_singleton] at hy
        exact hy ▸ hx2
  · intro x hx
    rcases List.mem_append.mp hx with h | h
    · obtain ⟨h1, h2⟩ := hb x h
      rw [hend] at h2
      exact ⟨h1, h2⟩
    · have hxeq : x = (e + 1) * tS := by
        rcases List.mem_cons.mp h with rfl | h
        · rfl
        · rw [List.mem_singleton] at h
          exact h
      subst hxeq
      exact ⟨Nat.mul_le_mul_right tS (Nat.le_succ e), le_refl _⟩

/-- Over a whole run whose per-epoch training batches cover the training
set, all logged steps are non-decreasing and bounded below by the step
at the start of the first executed epoch. -/
theorem run_steps_sorted (cfg : Config) (tS sS : ℕ)
    (tD : ℕ → List TrainBatch) (sD : ℕ → List TestBatch)
    (hc : ∀ e, ((tD e).map TrainBatch.size).sum = tS) :
    ∀ (n e : ℕ) (w : ℚ),
      List.Pairwise (· ≤ ·)
          (loggedSteps (runFrom cfg tS sS tD sD e n w).1) ∧
        ∀ x ∈ loggedSteps (runFrom cfg tS sS tD sD e n w).1, e * tS ≤ x := by
  intro n
  induction n with
  | zero =>
    intro e w
    constructor
    · exact List.Pairwise.nil
    · intro x hx
      exact absurd hx (List.not_mem_nil x)
  | succ n ih =>
    intro e w
    have hsplit : (runFrom cfg tS sS tD sD e (n + 1) w).1 =
        (epochBody cfg tS sS e (tD e) (sD e) w).1 ++
          (runFrom cfg tS sS tD sD (e + 1) n
            (epochBody cfg tS sS e (tD e) (sD e) w).2.2).1 := rfl
    obtain ⟨hep, heb⟩ := epoch_steps_sorted cfg tS sS e (tD e) (sD e) w (hc e)
    obtain ⟨hrp, hrb⟩ := ih (e + 1) (epochBody cfg tS sS e (tD e) (sD e) w).2.2
    rw [hsplit, loggedSteps_append]
    constructor
    · rw [List.pairwise_append]
      refine ⟨hep, hrp, ?_⟩
      intro x hx y hy
      have hx2 := (heb x hx).2
      have hy1 := hrb y hy
      omega
    · intro x hx
      rcases List.mem_append.mp hx with h | h
      · exact (heb x h).1
      · have := hrb x h
        have hmul : e * tS ≤ (e + 1) * tS :=
          Nat.mul_le_mul_right tS (Nat.le_succ e)
        omega

/-- C4 counterexample: in a two-epoch run with one training batch of
size 1 per epoch, the logged step sequence is [0,0,0,1,1,1,1,1,2,2]: the
three per-batch scalars share a step, and the test summaries of epoch 0
are logged at the same step as the first training batch of epoch 1, so
the sequence is not strictly increasing. -/
theorem c4_counterexample :
    ¬ List.Pairwise (· < ·)
      (loggedSteps (runFrom ⟨none, 0, 0, 2⟩ 1 1 (fun _ => [⟨1, 0, 0⟩])
        (fun _ => [⟨1, 0, 0⟩]) 0 2 0).1) := by decide

/-- C4 amended: provided each epoch's training batches cover the
training set, the sequence of global step values at which scalar
summaries are logged is monotonically non-decreasing within each epoch
and across epochs — but not strictly increasing: the three per-batch
scalars share one step value, and the test summaries of an epoch are
keyed by the same step as the first training batch of the next epoch. -/
theorem c4_steps_nondecreasing (cfg : Config) (trainSize testSize : ℕ)
    (tD : ℕ → List TrainBatch) (sD : ℕ → List TestBatch)
    (hcover : ∀ e, ((tD e).map TrainBatch.size).sum = trainSize)
    (e n : ℕ) (w : ℚ) :
    List.Pairwise (· ≤ ·)
      (loggedSteps (runFrom cfg trainSize testSize tD sD e n w).1) :=
  (run_steps_sorted cfg trainSize testSize tD sD hcover n e w).1

/-- Witness for the amended C4 on a concrete two-epoch run. -/
theorem c4_steps_nondecreasing_witness :
    List.Pairwise (· ≤ ·)
      (loggedSteps (runFrom ⟨none, 0, 0, 2⟩ 1 1 (fun _ => [⟨1, 0, 0⟩])
        (fun _ => [⟨1, 0, 0⟩]) 0 2 0).1) :=
  c4_steps_nondecreasing ⟨none, 0, 0, 2⟩ 1 1 (fun _ => [⟨1, 0, 0⟩])
    (fun _ => [⟨1, 0, 0⟩]) (fun _ => rfl) 0 2 0

end VisualDynamics
